import Mathlib

/-!
Verification of the code-reviewer repository's diff parser, pipeline
orchestrator, LLM-response validation, and report-markdown extractor.

The definitions below are shallow embeddings of the TypeScript sources:
  * `src/parsers/git-diff-parser.ts`   (GitDiffParser)
  * pipeline executor (PipelineExecutor.execute / aggregateReport)
  * `src/agents/base-agent.ts`         (BaseAgent.parseFindings / isValidFinding)
  * `src/commands/extract.ts`          (extractCheckedFindings)

JavaScript strings are modelled as `List Char`; JS `String.prototype.split`,
`startsWith`, `substring`, `trim`, regex matching etc. are modelled by
explicit character-list functions with the same semantics on the inputs
the program handles (newline = '\n').
-/

set_option maxRecDepth 20000

namespace CodeReviewer

/-- The backtick character (code point 96). -/
def backtick : Char := Char.ofNat 96

/-- Strips `pat` from the front of `l`; `some rest` on success.
Models an anchored literal match in a JS regex. -/
def stripLit : List Char → List Char → Option (List Char)
  | [], l => some l
  | _ :: _, [] => none
  | p :: ps, c :: cs => if c == p then stripLit ps cs else none

/-- Models JS `String.prototype.startsWith(pat)`. -/
def startsWithChars (pat l : List Char) : Bool :=
  (stripLit pat l).isSome

/-- Models JS `String.prototype.endsWith(pat)`. -/
def endsWithChars (pat l : List Char) : Bool :=
  startsWithChars pat.reverse l.reverse

/-- Models JS `String.prototype.includes(pat)`: some suffix starts with `pat`. -/
def containsChars (pat l : List Char) : Bool :=
  l.tails.any (fun t => startsWithChars pat t)

/-- Models JS `String.prototype.trim()` (drop whitespace at both ends). -/
def jsTrim (l : List Char) : List Char :=
  ((l.dropWhile Char.isWhitespace).reverse.dropWhile Char.isWhitespace).reverse

/-- Models JS `str.split("\n")`: a list of newline-free segments, one more
segment than there are newlines (so a trailing newline yields a final `[]`). -/
def splitLines : List Char → List (List Char)
  | [] => [[]]
  | c :: rest =>
    if c == '\n' then [] :: splitLines rest
    else
      match splitLines rest with
      | l :: ls => (c :: l) :: ls
      | [] => [[c]]

/-- Greedy `\d+` / `\d*`: the leading run of digits and the remainder. -/
def spanDigits (cs : List Char) : List Char × List Char :=
  (cs.takeWhile Char.isDigit, cs.dropWhile Char.isDigit)

/-- Decimal value of a digit string; models JS `parseInt(s, 10)` on an
all-digit capture. -/
def digitsVal (ds : List Char) : Nat :=
  ds.foldl (fun n c => 10 * n + (c.toNat - 48)) 0

/-- Models the `,?\d*` part of the hunk-header regex, in the position it is
used (immediately after a greedy `\d+`, so the head is never a digit): an
optional comma followed by a greedy digit run. -/
def skipCommaDigits (cs : List Char) : List Char :=
  match cs with
  | c :: r => if c == ',' then r.dropWhile Char.isDigit else c :: r
  | [] => []

/-- Models the regex `/^@@ -\d+,?\d* \+(\d+),?\d* @@/)` from
`GitDiffParser.parseFileDiff`, returning the captured new-start number. -/
def matchHunkHeader (l : List Char) : Option Nat :=
  match stripLit "@@ -".data l with
  | none => none
  | some r0 =>
    let d1 := (spanDigits r0).1
    let r1 := (spanDigits r0).2
    if d1.isEmpty then none
    else
      match stripLit " +".data (skipCommaDigits r1) with
      | none => none
      | some r2 =>
        let d2 := (spanDigits r2).1
        let r3 := (spanDigits r2).2
        if d2.isEmpty then none
        else
          match stripLit " @@".data (skipCommaDigits r3) with
          | none => none
          | some _ => some (digitsVal d2)

/-- Kind of one diff line inside a hunk. -/
inductive ChangeKind
  | add
  | delete
  | context
  deriving DecidableEq, Repr

/-- One `Change` record from `src/parsers/types.ts`. -/
structure Change where
  kind : ChangeKind
  lineNumber : Nat
  content : List Char
  deriving DecidableEq, Repr

/-- File status from `src/parsers/types.ts`. -/
inductive FileStatus
  | added
  | modified
  | deleted
  | renamed
  deriving DecidableEq, Repr

/-- One `FileDiff` record from `src/parsers/types.ts`. -/
structure FileDiff where
  path : List Char
  oldPath : Option (List Char)
  status : FileStatus
  additions : Nat
  deletions : Nat
  changes : List Change
  deriving DecidableEq, Repr

instance : Inhabited FileDiff :=
  ⟨⟨[], none, FileStatus.modified, 0, 0, []⟩⟩

/-- The `ParsedDiff` record from `src/parsers/types.ts`. -/
structure ParsedDiff where
  files : List FileDiff
  totalAdditions : Nat
  totalDeletions : Nat
  summary : List Char
  deriving DecidableEq, Repr

/-- Mutable loop state of `GitDiffParser.parseFileDiff`'s line walk. -/
structure ParseState where
  changes : List Change
  additions : Nat
  deletions : Nat
  currentLineNumber : Nat
  deriving DecidableEq, Repr

/-- One iteration of the `for` loop in `GitDiffParser.parseFileDiff`
(lines 134-168 of `git-diff-parser.ts`). -/
def parseLine (st : ParseState) (line : List Char) : ParseState :=
  match matchHunkHeader line with
  | some n => { st with currentLineNumber := n }
  | none =>
    if startsWithChars "+".data line && !(startsWithChars "+++".data line) then
      { st with
          changes := st.changes ++ [⟨ChangeKind.add, st.currentLineNumber, line.drop 1⟩],
          additions := st.additions + 1,
          currentLineNumber := st.currentLineNumber + 1 }
    else if startsWithChars "-".data line && !(startsWithChars "---".data line) then
      { st with
          changes := st.changes ++ [⟨ChangeKind.delete, st.currentLineNumber, line.drop 1⟩],
          deletions := st.deletions + 1 }
    else if startsWithChars " ".data line then
      { st with
          changes := st.changes ++ [⟨ChangeKind.context, st.currentLineNumber, line.drop 1⟩],
          currentLineNumber := st.currentLineNumber + 1 }
    else st

/-- Models the header match `lines[0]?.match(/^a\/(.+?) b\/(.+?)$/)`: after the literal `a/`,
the lazy first group takes the shortest non-empty prefix followed by
`" b/"` and a non-empty remainder (the second group, which runs to the end
of the line). -/
def splitOldNew (acc : List Char) : List Char → Option (List Char × List Char)
  | c :: rest =>
    match rest with
    | ' ' :: 'b' :: '/' :: d :: r2 => some (acc ++ [c], d :: r2)
    | _ => splitOldNew (acc ++ [c]) rest
  | [] => none

/-- The full first-header-line match of `GitDiffParser.parseFileDiff`. -/
def matchOldNew (l : List Char) : Option (List Char × List Char) :=
  match l with
  | 'a' :: '/' :: rest => splitOldNew [] rest
  | _ => none

/-- Embeds `GitDiffParser.parseFileDiff` (lines 108-178 of `git-diff-parser.ts`). -/
def parseFileDiff (diffContent : List Char) : Option FileDiff :=
  let lines := splitLines diffContent
  match matchOldNew (lines.headD []) with
  | none => none
  | some (oldPath, newPath) =>
    let st := lines.foldl parseLine ⟨[], 0, 0, 0⟩
    some
      { path := newPath
        oldPath := if oldPath == newPath then none else some oldPath
        status :=
          if containsChars "new file mode".data diffContent then FileStatus.added
          else if containsChars "deleted file mode".data diffContent then FileStatus.deleted
          else if oldPath == newPath then FileStatus.modified
          else FileStatus.renamed
        additions := st.additions
        deletions := st.deletions
        changes := st.changes }

/-- Models the split `diffContent.split(/^diff --git /m)` from
`GitDiffParser.processDiff`, working line-by-line: a line beginning with
the literal `diff --git ` starts a new piece (the marker itself removed);
the newline preceding such a line belongs to the piece before it.  Returns
`(head, pieces)`: the text before the first marker, then one piece per
marker. -/
def splitMarkers : List (List Char) → List Char × List (List Char)
  | [] => ([], [])
  | l :: rest =>
    match stripLit "diff --git ".data l, rest with
    | some r, [] => ([], [r])
    | some r, l2 :: rest2 =>
      let tl := splitMarkers (l2 :: rest2)
      ([], (r ++ '\n' :: tl.1) :: tl.2)
    | none, [] => (l, [])
    | none, l2 :: rest2 =>
      let tl := splitMarkers (l2 :: rest2)
      (l ++ '\n' :: tl.1, tl.2)

/-- The split `diffContent.split(/^diff --git /m)` as a flat list of pieces. -/
def splitDiffGit (diffContent : List Char) : List (List Char) :=
  let p := splitMarkers (splitLines diffContent)
  p.1 :: p.2

/-- Supported extensions from `GitDiffParser.supportedExtensions`. -/
def supportedExtensions : List (List Char) :=
  [".ts".data, ".tsx".data, ".js".data, ".jsx".data]

/-- Embeds `GitDiffParser.isSupportedFile`. -/
def isSupportedFile (p : List Char) : Bool :=
  supportedExtensions.any (fun ext => endsWithChars ext p)

/-- Embeds `GitDiffParser.processDiff` (lines 72-103 of `git-diff-parser.ts`),
for the file-based path (no external diff summary). -/
def processDiff (diffContent : String) : ParsedDiff :=
  let pieces := (splitDiffGit diffContent.data).filter (fun p => !p.isEmpty)
  let files := pieces.filterMap (fun p =>
    match parseFileDiff p with
    | some fd => if isSupportedFile fd.path then some fd else none
    | none => none)
  { files := files
    totalAdditions := (files.map FileDiff.additions).sum
    totalDeletions := (files.map FileDiff.deletions).sum
    summary :=
      (toString files.length).data ++ " files changed, ".data ++
      (toString (files.map FileDiff.additions).sum).data ++ " insertions(+), ".data ++
      (toString (files.map FileDiff.deletions).sum).data ++ " deletions(-)".data }

/-! ## Agents and pipeline (agents/types.ts, pipeline executor) -/

/-- One `AgentFinding` from `src/agents/types.ts`.  The TypeScript union
types for `type`/`severity` are erased at runtime (values arrive from
parsed JSON), so both are modelled as strings, exactly as the aggregation
code treats them. -/
structure AgentFinding where
  kind : String
  severity : String
  category : String
  message : String
  file : String
  line : Option Nat
  suggestion : Option String
  code : Option String
  deriving DecidableEq, Repr

/-- One `AgentResult` from `src/agents/types.ts` (tokenUsage reduced to its
`totalTokens` component, the only part the executor reads). -/
structure AgentResult where
  agentName : String
  findings : List AgentFinding
  executionTime : Nat
  tokenUsage : Option Nat
  deriving DecidableEq, Repr

/-- The aggregated token usage object built by
`PipelineExecutor.aggregateReport`. -/
structure TokenUsage where
  total : Nat
  byAgentCodeReview : Option Nat
  byAgentSecurity : Option Nat
  byAgentPerformance : Option Nat
  deriving DecidableEq, Repr

/-- The `ReportSummary` record from the reporter types (`byAgent` fields inlined). -/
structure ReportSummary where
  totalFindings : Nat
  critical : Nat
  high : Nat
  medium : Nat
  low : Nat
  byAgentCodeReview : Nat
  byAgentSecurity : Nat
  byAgentPerformance : Nat
  deriving DecidableEq, Repr

/-- The `Report` record from the reporter types (`generatedAt` wall-clock timestamp is
not modelled). -/
structure Report where
  summary : ReportSummary
  codeReview : List AgentFinding
  security : List AgentFinding
  performance : List AgentFinding
  executionTime : Nat
  tokenUsage : Option TokenUsage
  deriving DecidableEq, Repr

/-- Embeds `PipelineExecutor.aggregateReport` (pipeline executor, lines 123-169).
An `Option AgentResult` of `none` models an absent key of the
`results` record (`results.codeReview?.findings || []`). -/
def aggregateReport (crRes secRes perfRes : Option AgentResult)
    (executionTime : Nat) : Report :=
  let codeReview := (crRes.map AgentResult.findings).getD []
  let security := (secRes.map AgentResult.findings).getD []
  let performance := (perfRes.map AgentResult.findings).getD []
  let allFindings := codeReview ++ security ++ performance
  let summary : ReportSummary :=
    { totalFindings := allFindings.length
      critical := (allFindings.filter (fun f => f.severity == "critical")).length
      high := (allFindings.filter (fun f => f.severity == "high")).length
      medium := (allFindings.filter (fun f => f.severity == "medium")).length
      low := (allFindings.filter (fun f => f.severity == "low")).length
      byAgentCodeReview := codeReview.length
      byAgentSecurity := security.length
      byAgentPerformance := performance.length }
  let totalTokens :=
    ((crRes.bind AgentResult.tokenUsage).getD 0) +
    ((secRes.bind AgentResult.tokenUsage).getD 0) +
    ((perfRes.bind AgentResult.tokenUsage).getD 0)
  { summary := summary
    codeReview := codeReview
    security := security
    performance := performance
    executionTime := executionTime
    tokenUsage :=
      if totalTokens > 0 then
        some ⟨totalTokens, crRes.bind AgentResult.tokenUsage,
              secRes.bind AgentResult.tokenUsage,
              perfRes.bind AgentResult.tokenUsage⟩
      else none }

/-- The `config.agents` enable flags of `PipelineConfig`. -/
structure AgentsConfig where
  codeReviewEnabled : Bool
  securityEnabled : Bool
  performanceEnabled : Bool
  deriving DecidableEq, Repr

/-- Everything observable about one `PipelineExecutor.execute` run: the
per-stage results, the `context.previousFindings` value each enabled stage
received when it started, the aggregated report, and the success flag. -/
structure ExecOutcome where
  crSeen : Option (List AgentFinding)
  secSeen : Option (List AgentFinding)
  perfSeen : Option (List AgentFinding)
  crResult : Option AgentResult
  secResult : Option AgentResult
  perfResult : Option AgentResult
  report : Report
  success : Bool
  deriving Repr

/-- Embeds `PipelineExecutor.execute` (pipeline executor, lines 49-121), after
successful setup.  Each stage is an opaque `analyze` function from the
context's `previousFindings` (`none` = the field is still `undefined`) to
an `AgentResult`; the diff, fixed for the whole run, is captured inside
those functions.  Mirrors the source exactly: step 1 assigns
`context.previousFindings = results.codeReview.findings`; step 2 appends
`[...(context.previousFindings || []), ...results.security.findings]`;
step 3 reads the context but appends nothing. -/
def executePipeline (cfg : AgentsConfig)
    (crAnalyze secAnalyze perfAnalyze : Option (List AgentFinding) → AgentResult)
    (executionTime : Nat) : ExecOutcome :=
  let prev0 : Option (List AgentFinding) := none
  let crResult := if cfg.codeReviewEnabled then some (crAnalyze prev0) else none
  let prev1 :=
    if cfg.codeReviewEnabled then some ((crAnalyze prev0).findings) else prev0
  let secResult := if cfg.securityEnabled then some (secAnalyze prev1) else none
  let prev2 :=
    if cfg.securityEnabled then
      some ((prev1.getD []) ++ (secAnalyze prev1).findings)
    else prev1
  let perfResult := if cfg.performanceEnabled then some (perfAnalyze prev2) else none
  { crSeen := prev0
    secSeen := prev1
    perfSeen := prev2
    crResult := crResult
    secResult := secResult
    perfResult := perfResult
    report := aggregateReport crResult secResult perfResult executionTime
    success := true }

/-- The try/catch wrapper shared by every agent's `analyze`
(e.g. `SecurityAgent.analyze`, lines 43-84 of `security-agent.ts`): the
whole body runs inside `try`; on an error the agent returns its name, an
empty findings list, the elapsed time measured up to the failure, and no
token usage.  The fallible body is modelled as an `Except`. -/
def analyzeWithCatch (name : String)
    (body : Option (List AgentFinding) → Except String (List AgentFinding × Option Nat))
    (elapsed : Nat) :
    Option (List AgentFinding) → AgentResult :=
  fun prev =>
    match body prev with
    | Except.ok (fs, tu) => ⟨name, fs, elapsed, tu⟩
    | Except.error _ => ⟨name, [], elapsed, none⟩

/-! ## BaseAgent.parseFindings validation (base-agent.ts) -/

/-- A JSON value as far as `typeof` distinguishes them, for modelling the
field checks in `BaseAgent.isValidFinding`. -/
inductive JVal
  | jstr (s : String)
  | jnum (n : Int)
  | jbool (b : Bool)
  | jnull
  | jarr
  | jobj
  deriving DecidableEq, Repr

/-- One candidate element of the JSON array extracted from the LLM
response; a field of `none` models an absent (`undefined`) property. -/
structure RawFinding where
  kind : Option JVal
  severity : Option JVal
  category : Option JVal
  message : Option JVal
  file : Option JVal
  line : Option JVal
  suggestion : Option JVal
  deriving DecidableEq, Repr

/-- One element of the parsed JSON array: either an object or some other
value (`null`, number, string, ...), which `finding && typeof finding ===
"object"` rejects. -/
inductive JElem
  | obj (f : RawFinding)
  | nonObj
  deriving DecidableEq, Repr

/-- The check `typeof v === "string"` on a possibly-absent field. -/
def isStringField : Option JVal → Bool
  | some (JVal.jstr _) => true
  | _ => false

/-- Embeds `BaseAgent.isValidFinding` (base-agent.ts, lines 55-65). -/
def isValidFinding : JElem → Bool
  | JElem.obj f =>
    isStringField f.kind && isStringField f.severity &&
    isStringField f.category && isStringField f.message &&
    isStringField f.file
  | JElem.nonObj => false

/-- The validation step of `BaseAgent.parseFindings` (base-agent.ts,
line 45): the producer-side filter applied to the JSON array parsed out of
the LLM response, i.e. `findings.filter(this.isValidFinding)`. -/
def parseFindingsValidated (elems : List JElem) : List JElem :=
  elems.filter isValidFinding

/-! ## Report markdown extractor (commands/extract.ts) -/

/-- The `ExtractedFinding` record from `src/commands/extract.ts`.  `file` and `issue`
start as empty strings; `line`, `suggestion` and `code` start absent. -/
structure ExtractedFinding where
  severity : List Char
  category : List Char
  file : List Char
  line : Option Nat
  issue : List Char
  suggestion : Option (List Char)
  code : Option (List Char)
  deriving DecidableEq, Repr

/-- JS `String.prototype.toLowerCase()` (ASCII-relevant part). -/
def jsToLower (l : List Char) : List Char :=
  l.map Char.toLower

/-- The lazy group of `/\*\*\[(.+?)\]\*\* (.+)$/`: the shortest non-empty
prefix followed by the literal closing bracket sequence and a non-empty
remainder. -/
def findSevCat (acc : List Char) : List Char → Option (List Char × List Char)
  | c :: rest =>
    match rest with
    | ']' :: '*' :: '*' :: ' ' :: d :: r2 => some (acc ++ [c], d :: r2)
    | _ => findSevCat (acc ++ [c]) rest
  | [] => none

/-- The match `line.match(/^- \[x\] \*\*\[(.+?)\]\*\* (.+)$/)` from
`extractCheckedFindings`, returning the severity and category captures. -/
def matchChecked (l : List Char) : Option (List Char × List Char) :=
  match stripLit "- [x] **[".data l with
  | some rest => findSevCat [] rest
  | none => none

/-- The stop test of the detail loop: another checkbox, a heading, or a
blank line immediately followed by a checkbox
(`detailLine.match(/^- \[/) || detailLine.match(/^##/) ||
(detailLine.trim() === "" && lines[i+1]?.match(/^- \[/))`). -/
def stopDetail (lines : List (List Char)) (i : Nat) (dl : List Char) : Bool :=
  startsWithChars "- [".data dl || startsWithChars "##".data dl ||
  ((jsTrim dl).isEmpty &&
    (match lines.get? (i + 1) with
     | some nl => startsWithChars "- [".data nl
     | none => false))

/-- A lazy `(.+?)` up to (but not including) the next occurrence of `stop`:
the shortest non-empty prefix whose following character is `stop`. -/
def lazyUntil (stop : Char) : List Char → Option (List Char × List Char)
  | c :: rest =>
    match rest with
    | d :: r2 =>
      if d == stop then some ([c], r2)
      else (lazyUntil stop rest).map (fun p => (c :: p.1, p.2))
    | [] => none
  | [] => none

/-- An attempt to match the File-field regex (literal `- **File**: ` +
backtick, then a lazy capture up to the closing backtick, then an optional
`:<digits>` suffix) at the head of `l`: the quoted path and, when the
suffix is present, the captured line number. -/
def tryFileField (l : List Char) : Option (List Char × Option Nat) :=
  match stripLit "- **File**: `".data l with
  | none => none
  | some r =>
    match lazyUntil backtick r with
    | none => none
    | some (path, r2) =>
      match r2 with
      | ':' :: r3 =>
        let ds := (spanDigits r3).1
        if ds.isEmpty then some (path, none) else some (path, some (digitsVal ds))
      | _ => some (path, none)

/-- The unanchored search for the File field: try every start position,
leftmost first, as the JS regex engine does. -/
def searchFileField : List Char → Option (List Char × Option Nat)
  | [] => none
  | c :: rest =>
    match tryFileField (c :: rest) with
    | some x => some x
    | none => searchFileField rest

/-- An attempt to match `lit` followed by a non-empty remainder (the greedy
`(.+)` capture, which runs to the end of the line) at the head of `l`. -/
def trySimpleField (lit : List Char) (l : List Char) : Option (List Char) :=
  match stripLit lit l with
  | some (c :: rest) => some (c :: rest)
  | _ => none

/-- The unanchored leftmost search for `lit` + `(.+)`. -/
def searchSimpleField (lit : List Char) : List Char → Option (List Char)
  | [] => none
  | c :: rest =>
    match trySimpleField lit (c :: rest) with
    | some x => some x
    | none => searchSimpleField lit rest

/-- The File / Issue / Suggestion updates applied to the current finding by
one detail line (extract.ts, lines 63-82), in source order.  A File match
overwrites `file` and only overwrites `line` when the `:<digits>` suffix
was captured; Issue and Suggestion overwrite their fields. -/
def applyDetailFields (f : ExtractedFinding) (dl : List Char) : ExtractedFinding :=
  let f1 :=
    match searchFileField dl with
    | some (p, ln) =>
      { f with file := p, line := match ln with | some n => some n | none => f.line }
    | none => f
  let f2 :=
    match searchSimpleField "- **Issue**: ".data dl with
    | some s => { f1 with issue := s }
    | none => f1
  match searchSimpleField "- **Suggestion**: ".data dl with
  | some s => { f2 with suggestion := some s }
  | none => f2

/-- Removes up to four leading whitespace characters:
`line.replace(/^\s{4}/, "")`. -/
def stripIndent4 (l : List Char) : List Char :=
  match l with
  | a :: b :: c :: d :: r =>
    if a.isWhitespace && b.isWhitespace && c.isWhitespace && d.isWhitespace then r
    else l
  | _ => l

/-- The Code-block sub-mode (extract.ts, lines 85-98): when the detail line
contains `- **Code**:`, advance one line; if that line (trimmed) opens a
fence, consume raw lines until one (trimmed) ends with a fence, stripping
one indentation level, and store them joined by newlines.  Returns the
updated finding and the index value before the loop's final `i++`. -/
def handleCode (lines : List (List Char)) (i : Nat) (f : ExtractedFinding)
    (dl : List Char) : ExtractedFinding × Nat :=
  if containsChars "- **Code**:".data dl then
    let i1 := i + 1
    match lines.get? i1 with
    | some l1 =>
      if startsWithChars "```".data (jsTrim l1) then
        let i2 := i1 + 1
        let taken := (lines.drop i2).takeWhile
          (fun l => !(endsWithChars "```".data (jsTrim l)))
        ({ f with code := some (List.intercalate "\n".data (taken.map stripIndent4)) },
         i2 + taken.length)
      else (f, i1)
    | none => (f, i1)
  else (f, i)

/-- The inner detail-scanning `while` loop of `extractCheckedFindings`
(extract.ts, lines 51-101), fuel-indexed: `none` only when the fuel runs
out. Returns the completed finding and the index at which the loop
stopped. -/
def scanDetails (lines : List (List Char)) :
    Nat → Nat → ExtractedFinding → Option (ExtractedFinding × Nat)
  | 0, _, _ => none
  | fuel + 1, i, f =>
    match lines.get? i with
    | none => some (f, i)
    | some dl =>
      if stopDetail lines i dl then some (f, i)
      else
        let f1 := applyDetailFields f dl
        let fc := handleCode lines i f1 dl
        scanDetails lines fuel (fc.2 + 1) fc.1

/-- The outer `while` loop of `extractCheckedFindings` (extract.ts, lines
27-112), fuel-indexed.  A finding is appended only when both its `file`
and `issue` ended up non-empty. -/
def extractAux (lines : List (List Char)) :
    Nat → Nat → List ExtractedFinding → Option (List ExtractedFinding)
  | 0, _, _ => none
  | fuel + 1, i, acc =>
    match lines.get? i with
    | none => some acc
    | some line =>
      match matchChecked line with
      | some (sev, cat) =>
        let f0 : ExtractedFinding := ⟨jsToLower sev, cat, [], none, [], none, none⟩
        match scanDetails lines (lines.length + 1) (i + 1) f0 with
        | none => none
        | some (f, i2) =>
          extractAux lines fuel i2
            (if !f.file.isEmpty && !f.issue.isEmpty then acc ++ [f] else acc)
      | none => extractAux lines fuel (i + 1) acc

/-- Embeds `extractCheckedFindings` (extract.ts, lines 14-115) on an
already-read report text, with enough fuel for its line count. -/
def extractCheckedFindings (content : String) : Option (List ExtractedFinding) :=
  let lines := splitLines content.data
  extractAux lines (lines.length + 1) 0 []

/-! ## Specification-side definitions and concrete example inputs -/

/-- The optional `[,<count>]` group of the hunk-header format as the
specification writes it: either absent, or a comma followed by at least
one digit.  (Written from the spec's format, for the refinement claim; the
source regex `,?\d*` is strictly more lenient.) -/
def specCommaCount (cs : List Char) : Option (List Char) :=
  match cs with
  | c :: r =>
    if c == ',' then
      if ((spanDigits r).1).isEmpty then none else some (spanDigits r).2
    else some (c :: r)
  | [] => some []

/-- The spec's hunk-header format
`@@ -<oldStart>[,<oldCount>] +<newStart>[,<newCount>] @@`, returning
`<newStart>`.  (Written from the spec's words, for the refinement
claim.) -/
def specHunkHeader (l : List Char) : Option Nat :=
  match stripLit "@@ -".data l with
  | none => none
  | some r0 =>
    if ((spanDigits r0).1).isEmpty then none
    else
      match specCommaCount (spanDigits r0).2 with
      | none => none
      | some r1 =>
        match stripLit " +".data r1 with
        | none => none
        | some r2 =>
          if ((spanDigits r2).1).isEmpty then none
          else
            match specCommaCount (spanDigits r2).2 with
            | none => none
            | some r3 =>
              match stripLit " @@".data r3 with
              | none => none
              | some _ => some (digitsVal (spanDigits r2).1)

/-- Number of changes of kind `k` in a change list. -/
def countKind (k : ChangeKind) (cs : List Change) : Nat :=
  (cs.filter (fun c => c.kind == k)).length

/-- Whether a change is an `add` or a `context` change. -/
def isAddOrContext (c : Change) : Bool :=
  c.kind == ChangeKind.add || c.kind == ChangeKind.context

/-- The line numbers of the add/context changes, in sequence order. -/
def addContextLineNos (cs : List Change) : List Nat :=
  (cs.filter isAddOrContext).map Change.lineNumber

/-- Holds (`strictIncrB l = true`) iff `l` is strictly increasing. -/
def strictIncrB : List Nat → Bool
  | [] => true
  | [_] => true
  | a :: b :: t => decide (a < b) && strictIncrB (b :: t)

/-- The concrete diff text of the spec's worked example. -/
def exC2 : String :=
  "diff --git a/x.ts b/x.ts\n@@ -1,2 +1,3 @@\n line1\n+added\n-old\n"

/-- A diff whose second hunk header resets the new-file counter to a
smaller value than the first hunk reached. -/
def exC8 : String :=
  "diff --git a/x.ts b/x.ts\n@@ -5,1 +5,1 @@\n A\n@@ -1,1 +1,1 @@\n B\n"

/-- A finding whose severity string is outside the four known values. -/
def infoFinding : AgentFinding :=
  ⟨"info", "info", "Style", "informational note", "a.ts", none, none, none⟩

/-- A parsed JSON candidate whose required fields are all present and
string-typed but whose `message` and `file` are empty strings. -/
def emptyStringsElem : JElem :=
  JElem.obj
    ⟨some (JVal.jstr "error"), some (JVal.jstr "high"), some (JVal.jstr "Security"),
     some (JVal.jstr ""), some (JVal.jstr ""), none, none⟩

/-- The `file` property of a parsed JSON array element. -/
def elemFile : JElem → Option JVal
  | JElem.obj f => f.file
  | JElem.nonObj => none

/-- The `message` property of a parsed JSON array element. -/
def elemMessage : JElem → Option JVal
  | JElem.obj f => f.message
  | JElem.nonObj => none

/-- The spec's worked extractor example: one checked item with File and
Issue fields. -/
def exChecklist : String :=
  "- [x] **[HIGH]** Null Check\n- **File**: `a.ts`:12\n- **Issue**: missing check\n"

/-! ## Helper lemmas about the diff parser -/

theorem startsWithChars_cons {p : Char} {ps l : List Char}
    (h : startsWithChars (p :: ps) l = true) :
    ∃ cs, l = p :: cs ∧ startsWithChars ps cs = true := by
  cases l with
  | nil => exact absurd h (by simp [startsWithChars, stripLit])
  | cons a as =>
    simp only [startsWithChars, stripLit] at h
    split at h
    · next hap => exact ⟨as, by rw [eq_of_beq hap], h⟩
    · simp at h

theorem matchHunkHeader_plus {cs : List Char} :
    matchHunkHeader ('+' :: cs) = none := rfl

theorem matchHunkHeader_minus {cs : List Char} :
    matchHunkHeader ('-' :: cs) = none := rfl

theorem matchHunkHeader_space {cs : List Char} :
    matchHunkHeader (' ' :: cs) = none := rfl

theorem parseLine_hunk {st : ParseState} {l : List Char} {n : Nat}
    (h : matchHunkHeader l = some n) :
    parseLine st l = { st with currentLineNumber := n } := by
  unfold parseLine
  rw [h]

theorem parseLine_add {st : ParseState} {l : List Char}
    (h1 : startsWithChars "+".data l = true)
    (h2 : startsWithChars "+++".data l = false) :
    parseLine st l =
      { st with
          changes := st.changes ++ [⟨ChangeKind.add, st.currentLineNumber, l.drop 1⟩],
          additions := st.additions + 1,
          currentLineNumber := st.currentLineNumber + 1 } := by
  obtain ⟨cs, rfl, -⟩ := startsWithChars_cons h1
  unfold parseLine
  rw [matchHunkHeader_plus]
  simp [h1, h2]

theorem parseLine_delete {st : ParseState} {l : List Char}
    (h1 : startsWithChars "-".data l = true)
    (h2 : startsWithChars "---".data l = false) :
    parseLine st l =
      { st with
          changes := st.changes ++ [⟨ChangeKind.delete, st.currentLineNumber, l.drop 1⟩],
          deletions := st.deletions + 1 } := by
  obtain ⟨cs, rfl, -⟩ := startsWithChars_cons h1
  unfold parseLine
  rw [matchHunkHeader_minus]
  have hplus : startsWithChars "+".data ('-' :: cs) = false := rfl
  simp [hplus, h1, h2]

theorem parseLine_context {st : ParseState} {l : List Char}
    (h1 : startsWithChars " ".data l = true) :
    parseLine st l =
      { st with
          changes := st.changes ++ [⟨ChangeKind.context, st.currentLineNumber, l.drop 1⟩],
          currentLineNumber := st.currentLineNumber + 1 } := by
  obtain ⟨cs, rfl, -⟩ := startsWithChars_cons h1
  unfold parseLine
  rw [matchHunkHeader_space]
  have hplus : startsWithChars "+".data (' ' :: cs) = false := rfl
  have hminus : startsWithChars "-".data (' ' :: cs) = false := rfl
  simp [hplus, hminus, h1]

theorem parseLine_other_changes {st : ParseState} {l : List Char}
    (c1 : (startsWithChars "+".data l && !startsWithChars "+++".data l) = false)
    (c2 : (startsWithChars "-".data l && !startsWithChars "---".data l) = false)
    (c3 : startsWithChars " ".data l = false) :
    (parseLine st l).changes = st.changes := by
  unfold parseLine
  cases h : matchHunkHeader l with
  | some n => rfl
  | none => simp [c1, c2, c3]

theorem specCommaCount_imp {cs r : List Char}
    (h : specCommaCount cs = some r) : skipCommaDigits cs = r := by
  cases cs with
  | nil => simpa [specCommaCount, skipCommaDigits] using h
  | cons c rest =>
    simp only [specCommaCount, skipCommaDigits] at h ⊢
    split
    · next hc =>
      rw [hc] at h
      simp only [if_true] at h
      split at h
      · simp at h
      · simpa [spanDigits] using h
    · next hc =>
      rw [if_neg ?_] at h
      · simpa using h
      · simpa using hc

theorem specHunkHeader_imp {l : List Char} {n : Nat}
    (h : specHunkHeader l = some n) : matchHunkHeader l = some n := by
  unfold specHunkHeader at h
  unfold matchHunkHeader
  split at h
  · exact absurd h (by simp)
  · next r0 h0 =>
    split at h
    · exact absurd h (by simp)
    · next hd1 =>
      split at h
      · exact absurd h (by simp)
      · next r1 hcc1 =>
        split at h
        · exact absurd h (by simp)
        · next r2 h2 =>
          split at h
          · exact absurd h (by simp)
          · next hd2 =>
            split at h
            · exact absurd h (by simp)
            · next r3 hcc2 =>
              split at h
              · exact absurd h (by simp)
              · next h3 =>
                simp only [specCommaCount_imp hcc1, specCommaCount_imp hcc2,
                  h2, h3, if_neg hd1, if_neg hd2]
                exact h

/-- C1: per-file diff block line rules: a line matching the spec's hunk
header format resets the running new-file counter to newStart; a line
beginning with + (not +++) produces an add Change at the counter and then
increments it; a line beginning with - (not ---) produces a delete Change
at the counter without incrementing; a line beginning with a single space
produces a context Change at the counter and increments it; all other
lines produce no Change. -/
theorem claim_C1_line_rules :
    (∀ (st : ParseState) (l : List Char) (n : Nat),
        specHunkHeader l = some n →
        parseLine st l = { st with currentLineNumber := n }) ∧
    (∀ (st : ParseState) (l : List Char),
        startsWithChars "+".data l = true →
        startsWithChars "+++".data l = false →
        parseLine st l =
          { st with
              changes := st.changes ++
                [⟨ChangeKind.add, st.currentLineNumber, l.drop 1⟩],
              additions := st.additions + 1,
              currentLineNumber := st.currentLineNumber + 1 }) ∧
    (∀ (st : ParseState) (l : List Char),
        startsWithChars "-".data l = true →
        startsWithChars "---".data l = false →
        parseLine st l =
          { st with
              changes := st.changes ++
                [⟨ChangeKind.delete, st.currentLineNumber, l.drop 1⟩],
              deletions := st.deletions + 1 }) ∧
    (∀ (st : ParseState) (l : List Char),
        startsWithChars " ".data l = true →
        parseLine st l =
          { st with
              changes := st.changes ++
                [⟨ChangeKind.context, st.currentLineNumber, l.drop 1⟩],
              currentLineNumber := st.currentLineNumber + 1 }) ∧
    (∀ (st : ParseState) (l : List Char),
        specHunkHeader l = none →
        (startsWithChars "+".data l && !startsWithChars "+++".data l) = false →
        (startsWithChars "-".data l && !startsWithChars "---".data l) = false →
        startsWithChars " ".data l = false →
        (parseLine st l).changes = st.changes) :=
  ⟨fun _ _ _ h => parseLine_hunk (specHunkHeader_imp h),
   fun _ _ h1 h2 => parseLine_add h1 h2,
   fun _ _ h1 h2 => parseLine_delete h1 h2,
   fun _ _ h1 => parseLine_context h1,
   fun _ _ _ c1 c2 c3 => parseLine_other_changes c1 c2 c3⟩

/-- Witness for C1 at concrete lines. -/
theorem claim_C1_line_rules_witness :
    parseLine ⟨[], 0, 0, 0⟩ "@@ -1,2 +7,3 @@".data = ⟨[], 0, 0, 7⟩ ∧
    parseLine ⟨[], 0, 0, 5⟩ "+new line".data =
      ⟨[⟨ChangeKind.add, 5, "new line".data⟩], 1, 0, 6⟩ ∧
    parseLine ⟨[], 0, 0, 5⟩ "-gone".data =
      ⟨[⟨ChangeKind.delete, 5, "gone".data⟩], 0, 1, 5⟩ ∧
    parseLine ⟨[], 0, 0, 5⟩ " kept".data =
      ⟨[⟨ChangeKind.context, 5, "kept".data⟩], 0, 0, 6⟩ ∧
    (parseLine ⟨[], 0, 0, 5⟩ "+++ b/x.ts".data).changes = [] :=
  ⟨claim_C1_line_rules.1 _ _ 7 (by decide),
   claim_C1_line_rules.2.1 _ _ (by decide) (by decide),
   claim_C1_line_rules.2.2.1 _ _ (by decide) (by decide),
   claim_C1_line_rules.2.2.2.1 _ _ (by decide),
   claim_C1_line_rules.2.2.2.2 _ _ (by decide) (by decide) (by decide) (by decide)⟩

/-- C2 (counterexample): on the spec's own example diff the delete Change
carries lineNumber 3, not 1 as claimed. -/
theorem claim_C2_counterexample :
    (processDiff exC2).files.map
        (fun fd => (fd.path, fd.status, fd.additions, fd.deletions)) =
      [("x.ts".data, FileStatus.modified, 1, 1)] ∧
    (processDiff exC2).files.map
        (fun fd => fd.changes.map (fun c => (c.kind, c.lineNumber))) =
      [[(ChangeKind.context, 1), (ChangeKind.add, 2), (ChangeKind.delete, 3)]] ∧
    ¬((processDiff exC2).files.map
        (fun fd => fd.changes.map (fun c => (c.kind, c.lineNumber))) =
      [[(ChangeKind.context, 1), (ChangeKind.add, 2), (ChangeKind.delete, 1)]]) :=
  ⟨by decide, by decide, by decide⟩

/-- C2 (amended): the example parses to one modified FileDiff for `x.ts`
with additions 1, deletions 1, and changes context@1, add@2, delete@3. -/
theorem claim_C2_amended :
    (processDiff exC2).files.map
        (fun fd => (fd.path, fd.oldPath, fd.status, fd.additions, fd.deletions,
          fd.changes.map (fun c => (c.kind, c.lineNumber)))) =
      [("x.ts".data, none, FileStatus.modified, 1, 1,
        [(ChangeKind.context, 1), (ChangeKind.add, 2), (ChangeKind.delete, 3)])] := by
  rfl

theorem strictIncrB_append {l : List Nat} {c : Nat} (h1 : strictIncrB l = true)
    (h2 : ∀ x ∈ l, x < c) : strictIncrB (l ++ [c]) = true := by
  induction l with
  | nil => rfl
  | cons a t ih =>
    cases t with
    | nil =>
      simp only [List.cons_append, List.nil_append, strictIncrB, Bool.and_eq_true,
        decide_eq_true_eq]
      exact ⟨h2 a (by simp), trivial⟩
    | cons b t2 =>
      simp only [strictIncrB, Bool.and_eq_true, decide_eq_true_eq] at h1
      simp only [List.cons_append, strictIncrB, Bool.and_eq_true, decide_eq_true_eq]
      refine ⟨h1.1, ?_⟩
      have := ih h1.2 (fun x hx => h2 x (by simp [hx]))
      simpa using this

theorem addContextLineNos_append (cs : List Change) (c : Change) :
    addContextLineNos (cs ++ [c]) =
      addContextLineNos cs ++ (if isAddOrContext c then [c.lineNumber] else []) := by
  simp only [addContextLineNos, List.filter_append]
  split <;> simp [*]

theorem addContext_add (n : Nat) (c : List Char) :
    isAddOrContext ⟨ChangeKind.add, n, c⟩ = true := rfl

theorem addContext_delete (n : Nat) (c : List Char) :
    isAddOrContext ⟨ChangeKind.delete, n, c⟩ = false := rfl

theorem addContext_context (n : Nat) (c : List Char) :
    isAddOrContext ⟨ChangeKind.context, n, c⟩ = true := rfl

theorem parseLine_inv_noHunk {st : ParseState} {l : List Char}
    (hl : matchHunkHeader l = none)
    (h1 : strictIncrB (addContextLineNos st.changes) = true)
    (h2 : ∀ x ∈ addContextLineNos st.changes, x < st.currentLineNumber) :
    strictIncrB (addContextLineNos (parseLine st l).changes) = true ∧
    (∀ x ∈ addContextLineNos (parseLine st l).changes,
      x < (parseLine st l).currentLineNumber) := by
  unfold parseLine
  split
  · next n heq => rw [hl] at heq; exact Option.noConfusion heq
  · split
    · refine ⟨?_, ?_⟩
      · rw [addContextLineNos_append, addContext_add, if_pos rfl]
        exact strictIncrB_append h1 h2
      · intro x hx
        rw [addContextLineNos_append, addContext_add, if_pos rfl] at hx
        show x < st.currentLineNumber + 1
        rcases List.mem_append.mp hx with hx | hx
        · exact Nat.lt_succ_of_lt (h2 x hx)
        · rw [List.mem_singleton.mp hx]
          show st.currentLineNumber < st.currentLineNumber + 1
          omega
    · split
      · refine ⟨?_, ?_⟩
        · rw [addContextLineNos_append, addContext_delete, if_neg (by simp)]
          simpa using h1
        · intro x hx
          rw [addContextLineNos_append, addContext_delete, if_neg (by simp)] at hx
          show x < st.currentLineNumber
          exact h2 x (by simpa using hx)
      · split
        · refine ⟨?_, ?_⟩
          · rw [addContextLineNos_append, addContext_context, if_pos rfl]
            exact strictIncrB_append h1 h2
          · intro x hx
            rw [addContextLineNos_append, addContext_context, if_pos rfl] at hx
            show x < st.currentLineNumber + 1
            rcases List.mem_append.mp hx with hx | hx
            · exact Nat.lt_succ_of_lt (h2 x hx)
            · rw [List.mem_singleton.mp hx]
              show st.currentLineNumber < st.currentLineNumber + 1
              omega
        · exact ⟨h1, h2⟩

theorem foldl_noHunk_incr : ∀ (ls : List (List Char)) (st : ParseState),
    (∀ l ∈ ls, matchHunkHeader l = none) →
    strictIncrB (addContextLineNos st.changes) = true →
    (∀ x ∈ addContextLineNos st.changes, x < st.currentLineNumber) →
    strictIncrB (addContextLineNos (ls.foldl parseLine st).changes) = true := by
  intro ls
  induction ls with
  | nil => intro st _ h1 _; simpa using h1
  | cons l ls ih =>
    intro st hnone h1 h2
    have hl : matchHunkHeader l = none := hnone l (by simp)
    have step := parseLine_inv_noHunk hl h1 h2
    simpa using ih (parseLine st l) (fun l2 hm => hnone l2 (by simp [hm])) step.1 step.2

/-- C8 (amended): within the changes produced from lines containing no hunk
header (i.e. inside a single hunk), the add/context lineNumber sequence is
strictly increasing; each add or context line advances the counter by
exactly one, while delete lines never advance it. -/
theorem claim_C8_amended :
    (∀ (start a d : Nat) (ls : List (List Char)),
        (∀ l ∈ ls, matchHunkHeader l = none) →
        strictIncrB (addContextLineNos
          ((ls.foldl parseLine ⟨[], a, d, start⟩).changes)) = true) ∧
    (∀ (st : ParseState) (l : List Char),
        startsWithChars "+".data l = true → startsWithChars "+++".data l = false →
        (parseLine st l).currentLineNumber = st.currentLineNumber + 1) ∧
    (∀ (st : ParseState) (l : List Char),
        startsWithChars " ".data l = true →
        (parseLine st l).currentLineNumber = st.currentLineNumber + 1) ∧
    (∀ (st : ParseState) (l : List Char),
        startsWithChars "-".data l = true → startsWithChars "---".data l = false →
        (parseLine st l).currentLineNumber = st.currentLineNumber) :=
  ⟨fun start a d ls h =>
      foldl_noHunk_incr ls ⟨[], a, d, start⟩ h rfl (by simp [addContextLineNos]),
   fun _ _ h1 h2 => by rw [parseLine_add h1 h2],
   fun _ _ h1 => by rw [parseLine_context h1],
   fun _ _ h1 h2 => by rw [parseLine_delete h1 h2]⟩

/-- Witness for C8 (amended) at a concrete single-hunk body. -/
theorem claim_C8_amended_witness :
    strictIncrB (addContextLineNos
      (([" a".data, "+b".data, "-c".data, " d".data].foldl
        parseLine ⟨[], 0, 0, 1⟩).changes)) = true ∧
    (parseLine ⟨[], 0, 0, 3⟩ "-x".data).currentLineNumber = 3 :=
  ⟨claim_C8_amended.1 1 0 0 _ (by decide),
   claim_C8_amended.2.2.2 ⟨[], 0, 0, 3⟩ _ (by decide) (by decide)⟩

/-- C8 (counterexample): a diff whose second hunk header resets the counter
downward yields an add/context lineNumber sequence [5, 1], which is not
strictly increasing, refuting the claim for arbitrary diff inputs. -/
theorem claim_C8_counterexample :
    addContextLineNos ((processDiff exC8).files.headD default).changes = [5, 1] ∧
    strictIncrB (addContextLineNos
      ((processDiff exC8).files.headD default).changes) = false :=
  ⟨by decide, by decide⟩

theorem countKind_append (k : ChangeKind) (xs : List Change) (c : Change) :
    countKind k (xs ++ [c]) =
      countKind k xs + (if c.kind == k then 1 else 0) := by
  simp only [countKind, List.filter_append]
  split <;> simp [*]

theorem parseLine_counts {st : ParseState} (l : List Char)
    (h1 : st.additions = countKind ChangeKind.add st.changes)
    (h2 : st.deletions = countKind ChangeKind.delete st.changes) :
    (parseLine st l).additions = countKind ChangeKind.add (parseLine st l).changes ∧
    (parseLine st l).deletions = countKind ChangeKind.delete (parseLine st l).changes := by
  unfold parseLine
  split
  · exact ⟨h1, h2⟩
  · split
    · refine ⟨?_, ?_⟩
      · show st.additions + 1 = countKind ChangeKind.add (st.changes ++ _)
        rw [countKind_append, h1]
        rfl
      · show st.deletions = countKind ChangeKind.delete (st.changes ++ _)
        rw [countKind_append, h2]
        rfl
    · split
      · refine ⟨?_, ?_⟩
        · show st.additions = countKind ChangeKind.add (st.changes ++ _)
          rw [countKind_append, h1]
          rfl
        · show st.deletions + 1 = countKind ChangeKind.delete (st.changes ++ _)
          rw [countKind_append, h2]
          rfl
      · split
        · refine ⟨?_, ?_⟩
          · show st.additions = countKind ChangeKind.add (st.changes ++ _)
            rw [countKind_append, h1]
            rfl
          · show st.deletions = countKind ChangeKind.delete (st.changes ++ _)
            rw [countKind_append, h2]
            rfl
        · exact ⟨h1, h2⟩

theorem foldl_counts : ∀ (ls : List (List Char)) (st : ParseState),
    st.additions = countKind ChangeKind.add st.changes →
    st.deletions = countKind ChangeKind.delete st.changes →
    (ls.foldl parseLine st).additions =
      countKind ChangeKind.add (ls.foldl parseLine st).changes ∧
    (ls.foldl parseLine st).deletions =
      countKind ChangeKind.delete (ls.foldl parseLine st).changes := by
  intro ls
  induction ls with
  | nil => intro st h1 h2; exact ⟨h1, h2⟩
  | cons l ls ih =>
    intro st h1 h2
    have step := parseLine_counts l h1 h2
    simpa using ih (parseLine st l) step.1 step.2

theorem parseFileDiff_counts {p : List Char} {fd : FileDiff}
    (h : parseFileDiff p = some fd) :
    fd.additions = countKind ChangeKind.add fd.changes ∧
    fd.deletions = countKind ChangeKind.delete fd.changes := by
  simp only [parseFileDiff] at h
  cases hm : matchOldNew ((splitLines p).headD []) with
  | none => rw [hm] at h; exact Option.noConfusion h
  | some pair =>
    obtain ⟨oldPath, newPath⟩ := pair
    rw [hm] at h
    have hrec := Option.some.inj h
    have base := foldl_counts (splitLines p) ⟨[], 0, 0, 0⟩ rfl rfl
    rw [← hrec]
    exact base

/-- C3: in every parsed diff, each retained FileDiff's additions (resp.
deletions) equals the number of add (resp. delete) changes in its change
sequence, and the ParsedDiff totals are the sums over retained files. -/
theorem claim_C3_count_invariants (diffContent : String) :
    (∀ fd ∈ (processDiff diffContent).files,
        fd.additions = countKind ChangeKind.add fd.changes ∧
        fd.deletions = countKind ChangeKind.delete fd.changes) ∧
    (processDiff diffContent).totalAdditions =
      ((processDiff diffContent).files.map FileDiff.additions).sum ∧
    (processDiff diffContent).totalDeletions =
      ((processDiff diffContent).files.map FileDiff.deletions).sum := by
  refine ⟨?_, rfl, rfl⟩
  intro fd hfd
  simp only [processDiff, List.mem_filterMap] at hfd
  obtain ⟨p, _, hsome⟩ := hfd
  cases hpd : parseFileDiff p with
  | none => rw [hpd] at hsome; exact Option.noConfusion hsome
  | some fd2 =>
    rw [hpd] at hsome
    change (if isSupportedFile fd2.path = true then some fd2 else none) = some fd at hsome
    have : fd2 = fd := by
      by_cases hs : isSupportedFile fd2.path = true
      · rw [if_pos hs] at hsome; exact Option.some.inj hsome
      · rw [if_neg hs] at hsome; exact Option.noConfusion hsome
    rw [← this]
    exact parseFileDiff_counts hpd

/-- Witness for C3 on the worked example diff. -/
theorem claim_C3_count_invariants_witness :
    (⟨"x.ts".data, none, FileStatus.modified, 1, 1,
      [⟨ChangeKind.context, 1, "line1".data⟩, ⟨ChangeKind.add, 2, "added".data⟩,
       ⟨ChangeKind.delete, 3, "old".data⟩]⟩ : FileDiff).additions =
      countKind ChangeKind.add
        [⟨ChangeKind.context, 1, "line1".data⟩, ⟨ChangeKind.add, 2, "added".data⟩,
         ⟨ChangeKind.delete, 3, "old".data⟩] ∧
    (⟨"x.ts".data, none, FileStatus.modified, 1, 1,
      [⟨ChangeKind.context, 1, "line1".data⟩, ⟨ChangeKind.add, 2, "added".data⟩,
       ⟨ChangeKind.delete, 3, "old".data⟩]⟩ : FileDiff).deletions =
      countKind ChangeKind.delete
        [⟨ChangeKind.context, 1, "line1".data⟩, ⟨ChangeKind.add, 2, "added".data⟩,
         ⟨ChangeKind.delete, 3, "old".data⟩] :=
  (claim_C3_count_invariants exC2).1 _ (by decide)

/-- C4: in every pipeline run, the previousFindings sequence visible to a
stage when it starts is exactly the concatenation of the findings of the
enabled stages that ran before it, in execution order; in particular no
stage sees its own findings or those of a stage that has not yet run. -/
theorem claim_C4_context_threading (cfg : AgentsConfig)
    (crAnalyze secAnalyze perfAnalyze : Option (List AgentFinding) → AgentResult)
    (t : Nat) :
    ((executePipeline cfg crAnalyze secAnalyze perfAnalyze t).crSeen.getD []) = [] ∧
    ((executePipeline cfg crAnalyze secAnalyze perfAnalyze t).secSeen.getD []) =
      (if cfg.codeReviewEnabled then
        (((executePipeline cfg crAnalyze secAnalyze perfAnalyze t).crResult.map
          AgentResult.findings).getD [])
       else []) ∧
    ((executePipeline cfg crAnalyze secAnalyze perfAnalyze t).perfSeen.getD []) =
      (if cfg.codeReviewEnabled then
        (((executePipeline cfg crAnalyze secAnalyze perfAnalyze t).crResult.map
          AgentResult.findings).getD [])
       else []) ++
      (if cfg.securityEnabled then
        (((executePipeline cfg crAnalyze secAnalyze perfAnalyze t).secResult.map
          AgentResult.findings).getD [])
       else []) := by
  obtain ⟨cr, sec, perf⟩ := cfg
  cases cr <;> cases sec <;> cases perf <;>
    simp [executePipeline]

/-- C5: when the first and third stages succeed and the second stage's
analysis body raises an error, the report still carries stage 1's and
stage 3's findings, stage 2 contributes zero findings (its result records
the elapsed time measured at the failure), and the pipeline outcome is
success. -/
theorem claim_C5_stage_isolation (f1 f3 : List AgentFinding)
    (tu1 tu3 : Option Nat) (e : String) (e1 e2 e3 t : Nat) :
    ((executePipeline ⟨true, true, true⟩
        (analyzeWithCatch "Code Review" (fun _ => Except.ok (f1, tu1)) e1)
        (analyzeWithCatch "Security" (fun _ => Except.error e) e2)
        (analyzeWithCatch "Performance" (fun _ => Except.ok (f3, tu3)) e3)
        t).report.codeReview = f1) ∧
    ((executePipeline ⟨true, true, true⟩
        (analyzeWithCatch "Code Review" (fun _ => Except.ok (f1, tu1)) e1)
        (analyzeWithCatch "Security" (fun _ => Except.error e) e2)
        (analyzeWithCatch "Performance" (fun _ => Except.ok (f3, tu3)) e3)
        t).report.security = []) ∧
    ((executePipeline ⟨true, true, true⟩
        (analyzeWithCatch "Code Review" (fun _ => Except.ok (f1, tu1)) e1)
        (analyzeWithCatch "Security" (fun _ => Except.error e) e2)
        (analyzeWithCatch "Performance" (fun _ => Except.ok (f3, tu3)) e3)
        t).report.performance = f3) ∧
    ((executePipeline ⟨true, true, true⟩
        (analyzeWithCatch "Code Review" (fun _ => Except.ok (f1, tu1)) e1)
        (analyzeWithCatch "Security" (fun _ => Except.error e) e2)
        (analyzeWithCatch "Performance" (fun _ => Except.ok (f3, tu3)) e3)
        t).secResult = some ⟨"Security", [], e2, none⟩) ∧
    ((executePipeline ⟨true, true, true⟩
        (analyzeWithCatch "Code Review" (fun _ => Except.ok (f1, tu1)) e1)
        (analyzeWithCatch "Security" (fun _ => Except.error e) e2)
        (analyzeWithCatch "Performance" (fun _ => Except.ok (f3, tu3)) e3)
        t).success = true) := by
  refine ⟨?_, ?_, ?_, ?_, rfl⟩ <;>
    simp [executePipeline, analyzeWithCatch, aggregateReport]

/-- C9 (implicit): the aggregated summary's totalFindings always equals the
sum of the three per-agent counts, and each per-agent count is the length
of that agent's findings list stored in the report; the four per-severity
counts need not sum to totalFindings, as a finding with an unknown
severity string is counted in the total but in no severity bucket. -/
theorem claim_C9_summary_counts :
    (∀ (crRes secRes perfRes : Option AgentResult) (t : Nat),
        (aggregateReport crRes secRes perfRes t).summary.totalFindings =
          (aggregateReport crRes secRes perfRes t).summary.byAgentCodeReview +
          (aggregateReport crRes secRes perfRes t).summary.byAgentSecurity +
          (aggregateReport crRes secRes perfRes t).summary.byAgentPerformance ∧
        (aggregateReport crRes secRes perfRes t).summary.byAgentCodeReview =
          (aggregateReport crRes secRes perfRes t).codeReview.length ∧
        (aggregateReport crRes secRes perfRes t).summary.byAgentSecurity =
          (aggregateReport crRes secRes perfRes t).security.length ∧
        (aggregateReport crRes secRes perfRes t).summary.byAgentPerformance =
          (aggregateReport crRes secRes perfRes t).performance.length) ∧
    ((aggregateReport (some ⟨"Code Review", [infoFinding], 0, none⟩) none none
        0).summary.critical +
     (aggregateReport (some ⟨"Code Review", [infoFinding], 0, none⟩) none none
        0).summary.high +
     (aggregateReport (some ⟨"Code Review", [infoFinding], 0, none⟩) none none
        0).summary.medium +
     (aggregateReport (some ⟨"Code Review", [infoFinding], 0, none⟩) none none
        0).summary.low ≠
     (aggregateReport (some ⟨"Code Review", [infoFinding], 0, none⟩) none none
        0).summary.totalFindings) := by
  refine ⟨?_, by decide⟩
  intro crRes secRes perfRes t
  refine ⟨?_, rfl, rfl, rfl⟩
  simp [aggregateReport]
  omega

/-- C7 (counterexample): a candidate finding whose `file` and `message` are
the empty string survives the producer-side validation filter, so the
returned list can contain findings with empty file and message. -/
theorem claim_C7_counterexample :
    parseFindingsValidated [emptyStringsElem] = [emptyStringsElem] ∧
    (parseFindingsValidated [emptyStringsElem]).map elemFile =
      [some (JVal.jstr "")] ∧
    (parseFindingsValidated [emptyStringsElem]).map elemMessage =
      [some (JVal.jstr "")] :=
  ⟨by decide, by decide, by decide⟩

/-- C7 (amended): every element returned by the producer-side validation is
an object whose type, severity, category, message and file properties are
present with string values — but empty strings are retained, not
discarded. -/
theorem claim_C7_amended :
    (∀ (elems : List JElem) (e : JElem), e ∈ parseFindingsValidated elems →
        ∃ f, e = JElem.obj f ∧
          isStringField f.kind = true ∧ isStringField f.severity = true ∧
          isStringField f.category = true ∧ isStringField f.message = true ∧
          isStringField f.file = true) ∧
    parseFindingsValidated [emptyStringsElem] = [emptyStringsElem] := by
  refine ⟨?_, by decide⟩
  intro elems e he
  have hv : isValidFinding e = true := (List.mem_filter.mp he).2
  cases e with
  | obj f =>
    simp only [isValidFinding, Bool.and_eq_true] at hv
    exact ⟨f, rfl, hv.1.1.1.1, hv.1.1.1.2, hv.1.1.2, hv.1.2, hv.2⟩
  | nonObj => exact absurd hv (by simp [isValidFinding])

/-- Witness for C7 (amended) at the concrete retained element. -/
theorem claim_C7_amended_witness :
    ∃ f, emptyStringsElem = JElem.obj f ∧
      isStringField f.kind = true ∧ isStringField f.severity = true ∧
      isStringField f.category = true ∧ isStringField f.message = true ∧
      isStringField f.file = true :=
  claim_C7_amended.1 [emptyStringsElem] emptyStringsElem (by decide)

theorem handleCode_ge (lines : List (List Char)) (i : Nat)
    (f : ExtractedFinding) (dl : List Char) :
    i ≤ (handleCode lines i f dl).2 := by
  by_cases hc : containsChars "- **Code**:".data dl = true
  · cases hg : lines.get? (i + 1) with
    | none =>
      simp only [handleCode, if_pos hc, hg]
      omega
    | some l1 =>
      by_cases hf : startsWithChars "```".data (jsTrim l1) = true
      · simp only [handleCode, if_pos hc, hg, if_pos hf]
        omega
      · simp only [handleCode, if_pos hc, hg, if_neg hf]
        omega
  · simp only [handleCode, if_neg hc]
    omega

theorem scanDetails_suffices (lines : List (List Char)) :
    ∀ (fuel i : Nat) (f : ExtractedFinding), lines.length - i < fuel →
      ∃ f2 i2, scanDetails lines fuel i f = some (f2, i2) ∧ i ≤ i2 := by
  intro fuel
  induction fuel with
  | zero => intro i f h; omega
  | succ fuel ih =>
    intro i f h
    cases hg : lines.get? i with
    | none =>
      refine ⟨f, i, ?_, Nat.le_refl i⟩
      simp only [scanDetails, hg]
    | some dl =>
      by_cases hs : stopDetail lines i dl = true
      · refine ⟨f, i, ?_, Nat.le_refl i⟩
        simp only [scanDetails, hg, if_pos hs]
      · obtain ⟨hlt, -⟩ := List.get?_eq_some.mp hg
        have hge := handleCode_ge lines i (applyDetailFields f dl) dl
        obtain ⟨f2, i3, heq, hge2⟩ :=
          ih ((handleCode lines i (applyDetailFields f dl) dl).2 + 1)
            (handleCode lines i (applyDetailFields f dl) dl).1 (by omega)
        refine ⟨f2, i3, ?_, by omega⟩
        simp only [scanDetails, hg, if_neg hs]
        exact heq

theorem extractAux_suffices (lines : List (List Char)) :
    ∀ (fuel i : Nat) (acc : List ExtractedFinding), lines.length - i < fuel →
      (extractAux lines fuel i acc).isSome := by
  intro fuel
  induction fuel with
  | zero => intro i acc h; omega
  | succ fuel ih =>
    intro i acc h
    cases hg : lines.get? i with
    | none => simp only [extractAux, hg, Option.isSome_some]
    | some line =>
      obtain ⟨hlt, -⟩ := List.get?_eq_some.mp hg
      cases hm : matchChecked line with
      | none =>
        have := ih (i + 1) acc (by omega)
        simp only [extractAux, hg, hm]
        exact this
      | some sevcat =>
        obtain ⟨sev, cat⟩ := sevcat
        obtain ⟨f, i2, heq, hge⟩ :=
          scanDetails_suffices lines (lines.length + 1) (i + 1)
            ⟨jsToLower sev, cat, [], none, [], none, none⟩ (by omega)
        have := ih i2
          (if !f.file.isEmpty && !f.issue.isEmpty then acc ++ [f] else acc) (by omega)
        simp only [extractAux, hg, hm, heq]
        exact this

theorem extractAux_extends (lines : List (List Char)) :
    ∀ (fuel i : Nat) (acc out : List ExtractedFinding),
      extractAux lines fuel i acc = some out → ∃ rest, out = acc ++ rest := by
  intro fuel
  induction fuel with
  | zero => intro i acc out h; simp only [extractAux] at h; exact Option.noConfusion h
  | succ fuel ih =>
    intro i acc out h
    cases hg : lines.get? i with
    | none =>
      simp only [extractAux, hg] at h
      exact ⟨[], by simp [Option.some.inj h]⟩
    | some line =>
      cases hm : matchChecked line with
      | none =>
        simp only [extractAux, hg, hm] at h
        exact ih _ _ _ h
      | some sevcat =>
        obtain ⟨sev, cat⟩ := sevcat
        cases hscan : scanDetails lines (lines.length + 1) (i + 1)
            ⟨jsToLower sev, cat, [], none, [], none, none⟩ with
        | none =>
          simp only [extractAux, hg, hm, hscan] at h
          exact Option.noConfusion h
        | some fi =>
          obtain ⟨f, i2⟩ := fi
          simp only [extractAux, hg, hm, hscan] at h
          obtain ⟨rest, hrest⟩ := ih _ _ _ h
          by_cases hgd : (!f.file.isEmpty && !f.issue.isEmpty) = true
          · rw [if_pos hgd] at hrest
            exact ⟨[f] ++ rest, by simp [hrest]⟩
          · rw [if_neg hgd] at hrest
            exact ⟨rest, hrest⟩

theorem extractAux_sound (lines : List (List Char)) :
    ∀ (fuel i : Nat) (acc out : List ExtractedFinding),
      extractAux lines fuel i acc = some out →
      (∀ f ∈ acc, f.file ≠ [] ∧ f.issue ≠ []) →
      ∀ f ∈ out, f.file ≠ [] ∧ f.issue ≠ [] := by
  intro fuel
  induction fuel with
  | zero => intro i acc out h; simp only [extractAux] at h; exact Option.noConfusion h
  | succ fuel ih =>
    intro i acc out h hacc
    cases hg : lines.get? i with
    | none =>
      simp only [extractAux, hg] at h
      rw [← Option.some.inj h]
      exact hacc
    | some line =>
      cases hm : matchChecked line with
      | none =>
        simp only [extractAux, hg, hm] at h
        exact ih _ _ _ h hacc
      | some sevcat =>
        obtain ⟨sev, cat⟩ := sevcat
        cases hscan : scanDetails lines (lines.length + 1) (i + 1)
            ⟨jsToLower sev, cat, [], none, [], none, none⟩ with
        | none =>
          simp only [extractAux, hg, hm, hscan] at h
          exact Option.noConfusion h
        | some fi =>
          obtain ⟨f, i2⟩ := fi
          simp only [extractAux, hg, hm, hscan] at h
          refine ih _ _ _ h ?_
          by_cases hgd : (!f.file.isEmpty && !f.issue.isEmpty) = true
          · rw [if_pos hgd]
            intro f2 hf2
            rcases List.mem_append.mp hf2 with hf2 | hf2
            · exact hacc f2 hf2
            · rw [List.mem_singleton.mp hf2]
              simp only [Bool.and_eq_true, Bool.not_eq_true'] at hgd
              constructor
              · simpa [List.isEmpty_iff] using hgd.1
              · simpa [List.isEmpty_iff] using hgd.2
          · rw [if_neg hgd]
            exact hacc

/-- C6: a checked checklist item contributes a finding exactly when both
its File and Issue fields were captured non-empty (optional Suggestion and
Code fields play no role in the gate); unchecked or non-item lines never
contribute; every emitted finding passed the gate, and appended findings
persist into the final output. -/
theorem claim_C6_extraction_gate :
    (∀ (content : String) (out : List ExtractedFinding) (f : ExtractedFinding),
        extractCheckedFindings content = some out → f ∈ out →
        f.file ≠ [] ∧ f.issue ≠ []) ∧
    (∀ (lines : List (List Char)) (fuel i : Nat) (acc : List ExtractedFinding)
        (line sev cat : List Char) (f : ExtractedFinding) (i2 : Nat),
        lines.get? i = some line →
        matchChecked line = some (sev, cat) →
        scanDetails lines (lines.length + 1) (i + 1)
          ⟨jsToLower sev, cat, [], none, [], none, none⟩ = some (f, i2) →
        extractAux lines (fuel + 1) i acc =
          extractAux lines fuel i2
            (if !f.file.isEmpty && !f.issue.isEmpty then acc ++ [f] else acc)) ∧
    (∀ (lines : List (List Char)) (fuel i : Nat) (acc : List ExtractedFinding)
        (line : List Char),
        lines.get? i = some line → matchChecked line = none →
        extractAux lines (fuel + 1) i acc = extractAux lines fuel (i + 1) acc) ∧
    (∀ (lines : List (List Char)) (fuel i : Nat)
        (acc out : List ExtractedFinding),
        extractAux lines fuel i acc = some out → ∃ rest, out = acc ++ rest) := by
  refine ⟨?_, ?_, ?_, extractAux_extends⟩
  · intro content out f h hf
    exact extractAux_sound (splitLines content.data) _ 0 [] out h (by simp) f hf
  · intro lines fuel i acc line sev cat f i2 hg hm hscan
    simp only [extractAux, hg, hm, hscan]
  · intro lines fuel i acc line hg hm
    simp only [extractAux, hg, hm]

/-- Witness for C6 on the spec's worked extractor example. -/
theorem claim_C6_extraction_gate_witness :
    (⟨"high".data, "Null Check".data, "a.ts".data, some 12, "missing check".data,
      none, none⟩ : ExtractedFinding).file ≠ [] ∧
    (⟨"high".data, "Null Check".data, "a.ts".data, some 12, "missing check".data,
      none, none⟩ : ExtractedFinding).issue ≠ [] :=
  claim_C6_extraction_gate.1 exChecklist
    [⟨"high".data, "Null Check".data, "a.ts".data, some 12, "missing check".data,
      none, none⟩] _ (by decide) (by decide)

/-- C10 (implicit): the checked-findings extraction is total on every
input text: with fuel bounded by the line count it always returns a
result, never exhausting fuel, for arbitrary (including malformed)
report markdown. -/
theorem claim_C10_extraction_total (content : String) :
    (extractCheckedFindings content).isSome :=
  extractAux_suffices (splitLines content.data)
    ((splitLines content.data).length + 1) 0 [] (by omega)

end CodeReviewer

